import Mathlib

/-!
A verification development for the matching & scoring engine of the
fire-piping grading repository (`tests/utils.py`): the Levenshtein
distance, the fuzzy title matcher, the material/diameter/page
normalizers, the IoU-based chunk matcher and the entity
precision/recall/F1 scorer.

Python strings are modelled as `List Char` (ASCII fragment: `str.lower`,
`str.strip`, `str.split`, the regex classes `\w`/`\s` and `float`/`int`
literal parsing are modelled on their ASCII behaviour, the fragment the
repository's data exercises).  Python `float` arithmetic is modelled by
`ℚ`, Python `int` by `ℤ`/`ℕ`, and Python exceptions by `Except PyErr`.

The file first gives the definitions (translations of the source
functions, plus the reference notions the theorems compare them with),
then the theorems.
-/

namespace Grading

set_option maxRecDepth 100000

/-- Python whitespace characters (`str.strip` / `str.split` / regex `\s`),
ASCII fragment. -/
def isSpacePy (c : Char) : Bool :=
  c = ' ' || c = '\t' || c = '\n' || c = '\r' || c = '\x0b' || c = '\x0c'

/-- Python `str.lower`, ASCII fragment. -/
def toLowerPy (c : Char) : Char := c.toLower

/-- Python `str.strip()`: drop whitespace from both ends. -/
def strip (s : List Char) : List Char :=
  ((s.dropWhile isSpacePy).reverse.dropWhile isSpacePy).reverse

/-- Helper for Python `str.split()`: accumulate the current word
(reversed) and cut at whitespace, dropping empty pieces. -/
def splitWSAux : List Char → List Char → List (List Char)
  | [], acc => if acc.isEmpty then [] else [acc.reverse]
  | c :: rest, acc =>
    if isSpacePy c then
      if acc.isEmpty then splitWSAux rest [] else acc.reverse :: splitWSAux rest []
    else splitWSAux rest (c :: acc)

/-- Python `str.split()` with no argument: split on whitespace runs,
dropping empty pieces. -/
def splitWS (s : List Char) : List (List Char) := splitWSAux s []

/-- Inner loop of the DP: given the remaining characters of `s2`, the
remaining cells of `previous_row` and the last cell written to
`current_row`, produce the rest of `current_row`.
`insertions = previous_row[j+1] + 1`, `deletions = current_row[j] + 1`,
`substitutions = previous_row[j] + (c1 != c2)`. -/
def rowAux (c1 : Char) : List Char → List Nat → Nat → List Nat
  | c2 :: s2rest, p0 :: p1 :: prest, last =>
    let v := min (p1 + 1) (min (last + 1) (p0 + (if c1 = c2 then 0 else 1)))
    v :: rowAux c1 s2rest (p1 :: prest) v
  | _, _, _ => []

/-- Outer loop of the DP: fold the rows over the characters of `s1`;
`i` is the (0-based) index of the current character, so `current_row`
starts with `i + 1`. -/
def dpLoop (s2 : List Char) : List Char → List Nat → Nat → List Nat
  | [], prev, _ => prev
  | c1 :: s1rest, prev, i =>
    dpLoop s2 s1rest ((i + 1) :: rowAux c1 s2 prev (i + 1)) (i + 1)

/-- The DP body of `calculate_levenshtein_distance` (after the swap):
`if len(s2) == 0: return len(s1)`, otherwise run the rows and return the
last entry of the final row. -/
def levDP (s1 s2 : List Char) : Nat :=
  if s2.length = 0 then s1.length
  else (dpLoop s2 s1 (List.range (s2.length + 1)) 0).getLastD 0

/-- `calculate_levenshtein_distance(s1, s2)` (tests/utils.py:43-70): if
`len(s1) < len(s2)` the source immediately recurses with the arguments
swapped, then runs the DP. -/
def calculate_levenshtein_distance (s1 s2 : List Char) : Nat :=
  if s1.length < s2.length then levDP s2 s1 else levDP s1 s2

/-- Reference recursive definition of the Levenshtein distance, mirroring
the cell recurrence of the DP (minimum of insertion, deletion and
substitution-or-copy).  Used to prove properties of the DP. -/
def lev : List Char → List Char → Nat
  | [], ys => ys.length
  | _ :: xs, [] => xs.length + 1
  | x :: xs, y :: ys =>
    min (lev xs (y :: ys) + 1)
      (min (lev (x :: xs) ys + 1) (lev xs ys + (if x = y then 0 else 1)))
termination_by xs ys => xs.length + ys.length
decreasing_by all_goals simp only [List.length_cons]; omega

/-- Alignment certificates: `Aligns xs ys n` means the two lists can be
aligned with total edit cost `n` (copy/substitute, delete from the left
list, insert from the right list). -/
inductive Aligns : List Char → List Char → Nat → Prop where
  | nil : Aligns [] [] 0
  | both (x y : Char) (xs ys : List Char) (n : Nat) :
      Aligns xs ys n → Aligns (x :: xs) (y :: ys) (n + (if x = y then 0 else 1))
  | left (x : Char) (xs ys : List Char) (n : Nat) :
      Aligns xs ys n → Aligns (x :: xs) ys (n + 1)
  | right (y : Char) (xs ys : List Char) (n : Nat) :
      Aligns xs ys n → Aligns xs (y :: ys) (n + 1)

/-- Reference meaning of a DP row: `levRow p w suf` lists, for every
non-empty prefix `q` of `suf`, the distance `lev p (w ++ q)`. -/
def levRow (p : List Char) : List Char → List Char → List Nat
  | _, [] => []
  | w, c :: rest => lev p (w ++ [c]) :: levRow p (w ++ [c]) rest

/-- Python's substring test `pat in s` on strings: `pat` occurs
contiguously in `s` (the empty pattern occurs in every string). -/
def substringOf (pat : List Char) : List Char → Bool
  | [] => pat.isEmpty
  | c :: rest => pat.isPrefixOf (c :: rest) || substringOf pat rest

/-- One iteration of the inner loop of `check_word_similarity`
(tests/utils.py:100-108): `word_a in word_b or word_b in word_a or
word_b.startswith(word_a) or word_a.startswith(word_b) or
(len(word_a) >= 4 and len(word_b) >= 4 and word_a[:4] == word_b[:4])`. -/
def wordPairOk (wa wb : List Char) : Bool :=
  substringOf wa wb || substringOf wb wa || wa.isPrefixOf wb || wb.isPrefixOf wa ||
    (decide (4 ≤ wa.length) && decide (4 ≤ wb.length) &&
      decide (wa.take 4 = wb.take 4))

/-- `check_word_similarity(words_a, words_b)` (tests/utils.py:98-109):
`matches` counts, with a `break`, the words of `words_a` having some
partner in `words_b`, and the function returns `matches == len(words_a)`,
i.e. every word of `words_a` has a partner. -/
def check_word_similarity (wsa wsb : List (List Char)) : Bool :=
  wsa.all fun wa => wsb.any fun wb => wordPairOk wa wb

/-- `fuzzy_title_match(title1, title2, max_distance=3)`
(tests/utils.py:73-122).  The threshold of the final edit-distance stage
is Python's `max(max_distance, int(max_len * 0.2))`; since the IEEE
double `0.2` is slightly above `1/5` and `max_len * 0.2` never rounds
below `max_len / 5`, truncation `int(max_len * 0.2)` equals the natural
floor division `max_len / 5`. -/
def fuzzy_title_match (title1 title2 : List Char) (maxd : Nat) : Bool :=
  let norm1 := strip (title1.map toLowerPy)
  let norm2 := strip (title2.map toLowerPy)
  if norm1 = norm2 then true
  else
    let words1 := splitWS norm1
    let words2 := splitWS norm2
    if check_word_similarity words1 words2 || check_word_similarity words2 words1
    then true
    else
      let distance := calculate_levenshtein_distance norm1 norm2
      let maxLen := max norm1.length norm2.length
      decide (distance ≤ max maxd (maxLen / 5))

/-- Python regex class `\w` (ASCII fragment): letters, digits, underscore. -/
def isWordCharPy (c : Char) : Bool := c.isAlphanum || c = '_'

/-- Helper for `re.sub(r'\s+', ' ', s)`: the flag records whether the
previous character was whitespace (already emitted as one space). -/
def collapseWSAux : List Char → Bool → List Char
  | [], _ => []
  | c :: rest, inRun =>
    if isSpacePy c then
      if inRun then collapseWSAux rest true else ' ' :: collapseWSAux rest true
    else c :: collapseWSAux rest false

/-- Python `re.sub(r'\s+', ' ', s)`: replace every whitespace run by a
single space. -/
def collapseWS (s : List Char) : List Char := collapseWSAux s false

/-- `normalize_material(material)` (tests/utils.py:239-255): lower-case
and strip, replace hyphens by spaces, drop the characters matching
neither `\w` nor `\s`, collapse whitespace runs.  Note that the source
strips *before* replacing hyphens and never strips again at the end. -/
def normalize_material (material : List Char) : List Char :=
  let n1 := strip (material.map toLowerPy)
  let n2 := n1.map fun c => if c = '-' then ' ' else c
  let n3 := n2.filter fun c => isWordCharPy c || isSpacePy c
  collapseWS n3

/-- The built-in exceptions the normalizers can raise.  (The `FormatError`
described by the spec does not exist anywhere in the source.) -/
inductive PyErr where
  | valueError
  | indexError
  | zeroDivError

deriving DecidableEq

deriving instance DecidableEq for Except

def exOk {ε α : Type} : Except ε α → Bool
  | .ok _ => true
  | .error _ => false

def digitsVal (ds : List Char) : Nat :=
  ds.foldl (fun a c => a * 10 + (c.toNat - 48)) 0

/-- Python float literal (ASCII fragment: optional sign, digits with at
most one dot, at least one digit; exponents, `inf`/`nan` and underscores
are outside the modelled fragment), with its value. -/
def floatCore (t : List Char) : Option ℚ :=
  let sgn : ℚ × List Char :=
    match t with
    | '+' :: r => (1, r)
    | '-' :: r => (-1, r)
    | r => (1, r)
  let ip := sgn.2.takeWhile Char.isDigit
  let rest := sgn.2.dropWhile Char.isDigit
  match rest with
  | [] => if ip.isEmpty then none else some (sgn.1 * digitsVal ip)
  | '.' :: fp =>
    if fp.all Char.isDigit && !(ip.isEmpty && fp.isEmpty) then
      some (sgn.1 * ((digitsVal ip : ℚ) + (digitsVal fp : ℚ) / (10 ^ fp.length)))
    else none
  | _ => none

/-- Python `float(s)` on a string: surrounding whitespace is ignored,
unparseable input raises `ValueError`. -/
def pyFloat (s : List Char) : Except PyErr ℚ :=
  match floatCore (strip s) with
  | some q => .ok q
  | none => .error .valueError

/-- Python integer literal (ASCII fragment): optional sign and a
non-empty digit string, surrounding whitespace ignored. -/
def intLitOk (s : List Char) : Bool :=
  match strip s with
  | '+' :: r => !r.isEmpty && r.all Char.isDigit
  | '-' :: r => !r.isEmpty && r.all Char.isDigit
  | r => !r.isEmpty && r.all Char.isDigit

/-- The value of an integer literal. -/
def intValOf (s : List Char) : ℤ :=
  match strip s with
  | '+' :: r => (digitsVal r : ℤ)
  | '-' :: r => -(digitsVal r : ℤ)
  | r => (digitsVal r : ℤ)

/-- Python `int(s)` on a string: parse an integer literal, raising
`ValueError` otherwise. -/
def pyInt (s : List Char) : Except PyErr ℤ :=
  if intLitOk s then .ok (intValOf s) else .error .valueError

/-- Python `str.replace(pat, '')` for the non-empty pattern `p :: ps`:
remove occurrences scanning left to right, continuing after each removal.
The fuel argument (instantiated with the length of the string) keeps the
recursion structural. -/
def replaceAllAux (p : Char) (ps : List Char) : Nat → List Char → List Char
  | 0, _ => []
  | _ + 1, [] => []
  | fuel + 1, c :: rest =>
    if (p :: ps).isPrefixOf (c :: rest) then
      replaceAllAux p ps fuel (rest.drop ps.length)
    else c :: replaceAllAux p ps fuel rest

def replaceAll (p : Char) (ps : List Char) (s : List Char) : List Char :=
  replaceAllAux p ps s.length s

/-- Python `str.split(sep)` for a single-character separator: all
segments, including empty ones (`"".split(sep) == ['']`). -/
def splitOnChar (sep : Char) : List Char → List (List Char)
  | [] => [[]]
  | c :: rest =>
    if c = sep then [] :: splitOnChar sep rest
    else
      match splitOnChar sep rest with
      | [] => [[c]]
      | w :: ws => (c :: w) :: ws

/-- The preprocessing chain of `normalize_diameter` (tests/utils.py:223):
`diameter.strip().replace('"', '').replace('inch', '').replace('in', '').strip()`. -/
def diameterPreprocess (s : List Char) : List Char :=
  strip (replaceAll 'i' ['n'] (replaceAll 'i' ['n', 'c', 'h']
    (replaceAll '"' [] (strip s))))

/-- `normalize_diameter(diameter)` (tests/utils.py:207-236).  Branches on
the delimiters exactly as the source: any `'-'` routes to the
mixed-number branch, else any `'/'` to the fraction branch, else
`float(...)`.  Failures are the Python built-ins, in source evaluation
order (`float(parts[0])`, then `float(frac_parts[0])`, then the
`frac_parts[1]` index, then `float(frac_parts[1])`, then the division). -/
def normalize_diameter (diameter : List Char) : Except PyErr ℚ :=
  let d := diameterPreprocess diameter
  if d.contains '-' then
    match splitOnChar '-' d with
    | p0 :: p1 :: _ => do
      let whole ← pyFloat p0
      match splitOnChar '/' p1 with
      | f0 :: rest => do
        let num ← pyFloat f0
        match rest with
        | f1 :: _ => do
          let den ← pyFloat f1
          if den = 0 then .error .zeroDivError else .ok (whole + num / den)
        | [] => .error .indexError
      | [] => .error .indexError
    | _ => .error .indexError
  else if d.contains '/' then
    match splitOnChar '/' d with
    | f0 :: f1 :: _ => do
      let num ← pyFloat f0
      let den ← pyFloat f1
      if den = 0 then .error .zeroDivError else .ok (num / den)
    | _ => .error .indexError
  else pyFloat d

/-- A dynamically-typed page value: Python `str`, or a number (`int` and
`float` collapsed into `ℚ`, matching Python numeric cross-type
equality). -/
inductive PageVal where
  | str (s : List Char)
  | num (q : ℚ)

deriving DecidableEq

/-- Python `int(x)` on a number truncates toward zero. -/
def ratTrunc (q : ℚ) : ℤ := if 0 ≤ q then ⌊q⌋ else ⌈q⌉

/-- `normalize_page_number(page)` (tests/utils.py:258-270): a string is
parsed with `int(page.strip())`, a number truncated with `int(page)`. -/
def normalize_page_number : PageVal → Except PyErr ℤ
  | .str s => pyInt s
  | .num q => .ok (ratTrunc q)

structure Chunk where
  title : List Char
  start_page : ℤ
  end_page : ℤ

deriving DecidableEq

/-- `calculate_iou_advanced(pred_chunk, gold_chunk)`
(tests/utils.py:165-204).  Chunk pages are modelled as integers
(`normalize_page_number` on an `int` is the identity).  Of the returned
pair `(iou, metrics)` only the IoU is modelled: the metrics dictionary
is diagnostic and never influences any result. -/
def calculate_iou_advanced (pred gold : Chunk) : ℚ :=
  let intersection : ℤ :=
    max 0 (min pred.end_page gold.end_page - max pred.start_page gold.start_page + 1)
  let predSize : ℤ := pred.end_page - pred.start_page + 1
  let goldSize : ℤ := gold.end_page - gold.start_page + 1
  let union : ℤ := predSize + goldSize - intersection
  if 0 < union then (intersection : ℚ) / (union : ℚ) else 0

/-- `calculate_iou` (tests/utils.py:273-285): the IoU component of
`calculate_iou_advanced`. -/
def calculate_iou (pred gold : Chunk) : ℚ := calculate_iou_advanced pred gold

/-- Title comparison inside `compare_chunks` (tests/utils.py:339-342):
fuzzy matching, or case-insensitive trimmed equality. -/
def titlesMatch (fuzzy : Bool) (t1 t2 : List Char) : Bool :=
  if fuzzy then fuzzy_title_match t1 t2 3
  else strip (t1.map toLowerPy) == strip (t2.map toLowerPy)

/-- The candidate scan of `compare_chunks` (tests/utils.py:333-351): fold
over the pool carrying `(best_match, best_score)`, replacing the best
when `iou >= iou_threshold and iou > best_score`. -/
def findBest (fuzzy : Bool) (thr : ℚ) (pred : Chunk) :
    List Chunk → Option Chunk × ℚ → Option Chunk × ℚ
  | [], acc => acc
  | g :: pool, acc =>
    if titlesMatch fuzzy pred.title g.title then
      let iou := calculate_iou_advanced pred g
      if thr ≤ iou ∧ acc.2 < iou then findBest fuzzy thr pred pool (some g, iou)
      else findBest fuzzy thr pred pool acc
    else findBest fuzzy thr pred pool acc

/-- The outer loop of `compare_chunks` (tests/utils.py:329-373): each
predicted chunk removes its winner from the pool of unmatched gold
chunks, a predicted chunk without winner fails, and leftover gold chunks
fail the match at the end. -/
def matchLoop (fuzzy : Bool) (thr : ℚ) : List Chunk → List Chunk → Bool
  | [], pool => pool.isEmpty
  | p :: ps, pool =>
    match (findBest fuzzy thr p pool (none, 0)).1 with
    | some best => matchLoop fuzzy thr ps (pool.erase best)
    | none => false

/-- `compare_chunks(predicted, gold_standard, page_tolerance=1,
iou_threshold=0.7, use_fuzzy_matching=True)` (tests/utils.py:288-379).
Schema validation is modelled as passing (typed `Chunk` records are
schema-conformant) and `validate_chunk_continuity` only prints advisory
diagnostics without affecting the result; `page_tolerance` is accepted
and ignored exactly as in the source. -/
def compare_chunks (predicted gold : List Chunk) (page_tolerance : ℤ)
    (iou_threshold : ℚ) (use_fuzzy : Bool) : Bool :=
  if predicted.length ≠ gold.length then false
  else matchLoop use_fuzzy iou_threshold predicted gold

/-- C1's selection rule, as worded: a step of "keep the candidate with
the strictly highest IoU, ties broken to the first in pool order". -/
def specStep (pred : Chunk) (acc : Option Chunk) (g : Chunk) : Option Chunk :=
  match acc with
  | none => some g
  | some b =>
    if calculate_iou_advanced pred b < calculate_iou_advanced pred g then some g
    else some b

/-- C1's winner: among the pool chunks whose title matches and whose IoU
reaches the threshold, the first candidate attaining the highest IoU. -/
def selectWinner (fuzzy : Bool) (thr : ℚ) (pred : Chunk) (pool : List Chunk) :
    Option Chunk :=
  (pool.filter fun g =>
    titlesMatch fuzzy pred.title g.title &&
      decide (thr ≤ calculate_iou_advanced pred g)).foldl (specStep pred) none

/-- C1's loop, as worded: every predicted chunk must consume a winner
from the pool; the result is true iff all of them do. -/
def specLoop (fuzzy : Bool) (thr : ℚ) : List Chunk → List Chunk → Bool
  | [], _ => true
  | p :: ps, pool =>
    match selectWinner fuzzy thr p pool with
    | some w => specLoop fuzzy thr ps (pool.erase w)
    | none => false

/-- The chunk-matching procedure exactly as claim C1 words it. -/
def compare_chunks_spec (predicted gold : List Chunk) (thr : ℚ) (fuzzy : Bool) :
    Bool :=
  if predicted.length ≠ gold.length then false
  else specLoop fuzzy thr predicted gold

/-- A dynamically-typed diameter: Python `str`, or a number (`int`/`float`
collapsed into `ℚ`). -/
inductive DiamVal where
  | str (s : List Char)
  | num (q : ℚ)

deriving DecidableEq

/-- A raw entity record (absent dictionary keys are `none`).  The `id`
key is never read by the engine and is omitted. -/
structure Entity where
  type : Option (List Char)
  material : Option (List Char)
  diameter : Option DiamVal
  schedule : Option (List Char)
  location_page : Option PageVal

deriving DecidableEq

/-- An entity after `normalize_entity`: the material normalized, a string
diameter parsed to a number, the page normalized to an integer. -/
structure EntityN where
  type : Option (List Char)
  material : Option (List Char)
  diameter : Option ℚ
  schedule : Option (List Char)
  location_page : Option ℤ

deriving DecidableEq

/-- `normalize_entity(entity)` (tests/utils.py:431-453): normalize
`material` if present, parse a string `diameter`, normalize
`location_page`; `type` and `schedule` pass through. -/
def normalize_entity (e : Entity) : Except PyErr EntityN := do
  let mat := e.material.map normalize_material
  let diam ← match e.diameter with
    | none => pure none
    | some (.num q) => pure (some q)
    | some (.str s) => do
      let q ← normalize_diameter s
      pure (some q)
  let page ← match e.location_page with
    | none => pure none
    | some pv => do
      let n ← normalize_page_number pv
      pure (some n)
  pure ⟨e.type, mat, diam, e.schedule, page⟩

/-- Field comparison in `entities_match`: disqualify only when both
entities define the field with different values. -/
def optFieldEq {α : Type} [DecidableEq α] : Option α → Option α → Bool
  | some a, some b => decide (a = b)
  | _, _ => true

/-- `entities_match(entity1, entity2)` (tests/utils.py:456-480). -/
def entities_match (e1 e2 : EntityN) : Bool :=
  optFieldEq e1.type e2.type && optFieldEq e1.material e2.material &&
    optFieldEq e1.diameter e2.diameter && optFieldEq e1.schedule e2.schedule &&
    (match e1.location_page, e2.location_page with
     | some p1, some p2 => decide (|p1 - p2| ≤ 1)
     | _, _ => true)

/-- A sample entity `{"type": "pipe"}` used for concrete evaluations. -/
def ePipe : Entity := ⟨some ("pipe".toList), none, none, none, none⟩

/-- `ePipe` after normalization. -/
def enPipe : EntityN := ⟨some ("pipe".toList), none, none, none, none⟩

/-- The list comprehension `[normalize_entity(e) for e in entities]`: the
first exception propagates. -/
def normList : List Entity → Except PyErr (List EntityN)
  | [] => .ok []
  | e :: es => do
    let n ← normalize_entity e
    let ns ← normList es
    .ok (n :: ns)

/-- `score_entities(predicted, gold_standard)` (tests/utils.py:382-428).
Schema validation is modelled as passing for the typed records.  The
match loop counts, for each normalized predicted entity, whether some
normalized gold entity matches (`break` after the first). -/
def score_entities (predicted gold : List Entity) : Except PyErr (ℚ × ℚ × ℚ) :=
  if predicted.isEmpty && gold.isEmpty then .ok (1, 1, 1)
  else if predicted.isEmpty then .ok (0, 0, 0)
  else if gold.isEmpty then .ok (0, 0, 0)
  else do
    let np ← normList predicted
    let ng ← normList gold
    let tp : ℕ := (np.filter fun p => ng.any fun g => entities_match p g).length
    let precision : ℚ := (tp : ℚ) / (predicted.length : ℚ)
    let recallScore : ℚ := (tp : ℚ) / (gold.length : ℚ)
    let f1 : ℚ := if 0 < precision + recallScore
      then 2 * (precision * recallScore) / (precision + recallScore) else 0
    pure (precision, recallScore, f1)

/-- Python float-literal test (the modelled fragment). -/
def floatLitOk (s : List Char) : Bool := (floatCore (strip s)).isSome

/-- The value of a parseable float literal (0 when unparseable). -/
def floatValOf (s : List Char) : ℚ := (floatCore (strip s)).getD 0

/-- A completable fraction `N/D` given the `split('/')` segments: at
least two segments, numeric first two segments, non-zero denominator
(extra segments are ignored, as in the source). -/
def fracPartsOk : List (List Char) → Bool
  | f0 :: f1 :: _ => floatLitOk f0 && floatLitOk f1 && !(decide (floatValOf f1 = 0))
  | _ => false

/-- The successfully-parseable diameter strings, mirroring the
delimiter-directed branching of the source: a `'-'` anywhere demands the
mixed-number form `W-N/D`, otherwise a `'/'` demands the fraction form
`N/D`, otherwise the string must be a float literal. -/
def diameter_ok (s : List Char) : Bool :=
  let d := diameterPreprocess s
  if d.contains '-' then
    match splitOnChar '-' d with
    | p0 :: p1 :: _ => floatLitOk p0 && fracPartsOk (splitOnChar '/' p1)
    | _ => false
  else if d.contains '/' then fracPartsOk (splitOnChar '/' d)
  else floatLitOk d

/-!
## Theorems
-/

theorem lev_nil_left (ys : List Char) : lev [] ys = ys.length := by
  cases ys <;> simp [lev]

theorem lev_nil_right (xs : List Char) : lev xs [] = xs.length := by
  cases xs <;> simp [lev]

theorem lev_cons_cons (x y : Char) (xs ys : List Char) :
    lev (x :: xs) (y :: ys) =
      min (lev xs (y :: ys) + 1)
        (min (lev (x :: xs) ys + 1) (lev xs ys + (if x = y then 0 else 1))) := by
  rw [lev]

theorem aligns_lev : ∀ xs ys : List Char, Aligns xs ys (lev xs ys) := by
  intro xs ys
  induction xs, ys using lev.induct with
  | case1 ys =>
    rw [lev_nil_left]
    induction ys with
    | nil => exact .nil
    | cons y ys ih => exact .right y [] ys ys.length ih
  | case2 x xs =>
    rw [lev_nil_right]
    simp only [List.length_cons]
    induction xs generalizing x with
    | nil => exact .left x [] [] 0 .nil
    | cons x2 xs ih => exact .left x (x2 :: xs) [] (xs.length + 1) (ih x2)
  | case3 x xs y ys ih1 ih2 ih3 =>
    rw [lev_cons_cons]
    have hA : Aligns (x :: xs) (y :: ys) (lev xs (y :: ys) + 1) :=
      .left x xs (y :: ys) _ ih1
    have hB : Aligns (x :: xs) (y :: ys) (lev (x :: xs) ys + 1) :=
      .right y (x :: xs) ys _ ih2
    have hC : Aligns (x :: xs) (y :: ys) (lev xs ys + (if x = y then 0 else 1)) :=
      .both x y xs ys _ ih3
    rcases Nat.lt_trichotomy (lev xs (y :: ys) + 1)
        (min (lev (x :: xs) ys + 1) (lev xs ys + (if x = y then 0 else 1))) with h | h | h
    · rw [min_eq_left (Nat.le_of_lt h)]; exact hA
    · rw [min_eq_left (Nat.le_of_eq h)]; exact hA
    · rw [min_eq_right (Nat.le_of_lt h)]
      rcases Nat.le_total (lev (x :: xs) ys + 1) (lev xs ys + (if x = y then 0 else 1)) with
        h2 | h2
      · rw [min_eq_left h2]; exact hB
      · rw [min_eq_right h2]; exact hC

theorem lev_le_cons_left (x : Char) (xs ys : List Char) :
    lev (x :: xs) ys ≤ lev xs ys + 1 := by
  cases ys with
  | nil => rw [lev_nil_right, lev_nil_right]; simp
  | cons y ys =>
    rw [lev_cons_cons]
    exact le_trans (Nat.min_le_left _ _) le_rfl

theorem lev_le_cons_right (y : Char) (xs ys : List Char) :
    lev xs (y :: ys) ≤ lev xs ys + 1 := by
  cases xs with
  | nil => rw [lev_nil_left, lev_nil_left]; simp
  | cons x xs =>
    rw [lev_cons_cons]
    exact le_trans (Nat.min_le_right _ _) (Nat.min_le_left _ _)

theorem aligns_ge {xs ys : List Char} {n : Nat} (h : Aligns xs ys n) :
    lev xs ys ≤ n := by
  induction h with
  | nil => rw [lev_nil_left]; exact Nat.le_refl 0
  | both x y xs ys n _ ih =>
    rw [lev_cons_cons]
    exact le_trans (le_trans (Nat.min_le_right _ _) (Nat.min_le_right _ _))
      (Nat.add_le_add_right ih _)
  | left x xs ys n _ ih =>
    exact le_trans (lev_le_cons_left x xs ys) (Nat.add_le_add_right ih 1)
  | right y xs ys n _ ih =>
    exact le_trans (lev_le_cons_right y xs ys) (Nat.add_le_add_right ih 1)

theorem aligns_symm {xs ys : List Char} {n : Nat} (h : Aligns xs ys n) :
    Aligns ys xs n := by
  induction h with
  | nil => exact .nil
  | both x y xs ys n _ ih =>
    have : (if x = y then 0 else 1) = (if y = x then 0 else 1) := by
      by_cases hxy : x = y
      · rw [if_pos hxy, if_pos hxy.symm]
      · rw [if_neg hxy, if_neg (fun h2 => hxy h2.symm)]
    rw [this]
    exact .both y x ys xs n ih
  | left x xs ys n _ ih => exact .right x ys xs n ih
  | right y xs ys n _ ih => exact .left y ys xs n ih

theorem lev_symm (xs ys : List Char) : lev xs ys = lev ys xs :=
  Nat.le_antisymm (aligns_ge (aligns_symm (aligns_lev ys xs)))
    (aligns_ge (aligns_symm (aligns_lev xs ys)))

theorem lev_self (xs : List Char) : lev xs xs = 0 := by
  induction xs with
  | nil => simp [lev]
  | cons x xs ih =>
    have h : Aligns (x :: xs) (x :: xs) (0 + (if x = x then 0 else 1)) :=
      .both x x xs xs 0 (ih ▸ aligns_lev xs xs)
    simp only [if_pos rfl, Nat.add_zero] at h
    exact Nat.le_antisymm (aligns_ge h) (Nat.zero_le _)

/-- Composition of alignments: the key step towards the triangle
inequality.  Strong induction on the total length of the three lists. -/
theorem aligns_comp : ∀ (N : Nat) (a b c : List Char) (m n : Nat),
    a.length + b.length + c.length ≤ N →
    Aligns a b m → Aligns b c n → ∃ k, k ≤ m + n ∧ Aligns a c k := by
  intro N
  induction N with
  | zero =>
    intro a b c m n hlen d1 d2
    have ha : a = [] := by cases a <;> simp_all
    have hb : b = [] := by cases b <;> simp_all
    have hc : c = [] := by cases c <;> simp_all
    subst ha; subst hb; subst hc
    exact ⟨0, Nat.zero_le _, .nil⟩
  | succ N ih =>
    intro a b c m n hlen d1 d2
    cases d1 with
    | nil => exact ⟨n, by omega, d2⟩
    | left x xs ys n1 d1' =>
      obtain ⟨k, hk, hal⟩ := ih xs b c n1 n
        (by simp only [List.length_cons] at hlen; omega) d1' d2
      exact ⟨k + 1, by omega, .left x xs c k hal⟩
    | both x y xs ys n1 d1' =>
      cases d2 with
      | both u z us cs n2 d2' =>
        obtain ⟨k, hk, hal⟩ := ih xs ys cs n1 n2
          (by simp only [List.length_cons] at hlen; omega) d1' d2'
        refine ⟨k + (if x = z then 0 else 1), ?_, .both x z xs cs k hal⟩
        by_cases h1 : x = y <;> by_cases h2 : y = z <;> by_cases h3 : x = z <;>
          simp_all <;> omega
      | left u us vs n2 d2' =>
        obtain ⟨k, hk, hal⟩ := ih xs ys c n1 n2
          (by simp only [List.length_cons] at hlen; omega) d1' d2'
        refine ⟨k + 1, ?_, .left x xs c k hal⟩
        by_cases h1 : x = y <;> simp_all <;> omega
      | right z us cs n2 d2' =>
        obtain ⟨k, hk, hal⟩ := ih (x :: xs) (y :: ys) cs (n1 + (if x = y then 0 else 1)) n2
          (by simp only [List.length_cons] at hlen ⊢; omega)
          (.both x y xs ys n1 d1') d2'
        exact ⟨k + 1, by omega, .right z (x :: xs) cs k hal⟩
    | right y xs ys n1 d1' =>
      cases d2 with
      | both u z us cs n2 d2' =>
        obtain ⟨k, hk, hal⟩ := ih a ys cs n1 n2
          (by simp only [List.length_cons] at hlen; omega) d1' d2'
        refine ⟨k + 1, ?_, .right z a cs k hal⟩
        by_cases h2 : y = z <;> simp_all <;> omega
      | left u us vs n2 d2' =>
        obtain ⟨k, hk, hal⟩ := ih a ys c n1 n2
          (by simp only [List.length_cons] at hlen; omega) d1' d2'
        exact ⟨k, by omega, hal⟩
      | right z us cs n2 d2' =>
        obtain ⟨k, hk, hal⟩ := ih a (y :: ys) cs (n1 + 1) n2
          (by simp only [List.length_cons] at hlen ⊢; omega)
          (.right y a ys n1 d1') d2'
        exact ⟨k + 1, by omega, .right z a cs k hal⟩

theorem lev_triangle (a b c : List Char) : lev a c ≤ lev a b + lev b c := by
  obtain ⟨k, hk, hal⟩ := aligns_comp (a.length + b.length + c.length) a b c
    (lev a b) (lev b c) le_rfl (aligns_lev a b) (aligns_lev b c)
  exact le_trans (aligns_ge hal) hk

theorem aligns_snoc_both {xs ys : List Char} {n : Nat} (u v : Char)
    (h : Aligns xs ys n) :
    Aligns (xs ++ [u]) (ys ++ [v]) (n + (if u = v then 0 else 1)) := by
  induction h with
  | nil => exact .both u v [] [] 0 .nil
  | both x y xs ys n h' ih =>
    have h2 := Aligns.both x y (xs ++ [u]) (ys ++ [v]) _ ih
    simp only [List.cons_append]
    have heq : n + (if x = y then 0 else 1) + (if u = v then 0 else 1)
        = n + (if u = v then 0 else 1) + (if x = y then 0 else 1) := by omega
    rw [heq]
    exact h2
  | left x xs ys n h' ih =>
    have h2 := Aligns.left x (xs ++ [u]) (ys ++ [v]) _ ih
    simp only [List.cons_append]
    have heq : n + 1 + (if u = v then 0 else 1)
        = n + (if u = v then 0 else 1) + 1 := by omega
    rw [heq]
    exact h2
  | right y xs ys n h' ih =>
    have h2 := Aligns.right y (xs ++ [u]) (ys ++ [v]) _ ih
    simp only [List.cons_append]
    have heq : n + 1 + (if u = v then 0 else 1)
        = n + (if u = v then 0 else 1) + 1 := by omega
    rw [heq]
    exact h2

theorem aligns_snoc_left {xs ys : List Char} {n : Nat} (u : Char)
    (h : Aligns xs ys n) : Aligns (xs ++ [u]) ys (n + 1) := by
  induction h with
  | nil => exact .left u [] [] 0 .nil
  | both x y xs ys n h' ih =>
    have h2 := Aligns.both x y (xs ++ [u]) ys _ ih
    simp only [List.cons_append]
    have heq : n + (if x = y then 0 else 1) + 1
        = n + 1 + (if x = y then 0 else 1) := by omega
    rw [heq]
    exact h2
  | left x xs ys n h' ih =>
    have h2 := Aligns.left x (xs ++ [u]) ys _ ih
    simp only [List.cons_append]
    exact h2
  | right y xs ys n h' ih =>
    exact .right y (xs ++ [u]) ys _ ih

theorem aligns_snoc_right {xs ys : List Char} {n : Nat} (v : Char)
    (h : Aligns xs ys n) : Aligns xs (ys ++ [v]) (n + 1) :=
  aligns_symm (aligns_snoc_left v (aligns_symm h))

theorem aligns_reverse {xs ys : List Char} {n : Nat} (h : Aligns xs ys n) :
    Aligns xs.reverse ys.reverse n := by
  induction h with
  | nil => exact .nil
  | both x y xs ys n h' ih =>
    simp only [List.reverse_cons]
    exact aligns_snoc_both x y ih
  | left x xs ys n h' ih =>
    simp only [List.reverse_cons]
    exact aligns_snoc_left x ih
  | right y xs ys n h' ih =>
    simp only [List.reverse_cons]
    exact aligns_snoc_right y ih

theorem lev_reverse (xs ys : List Char) :
    lev xs.reverse ys.reverse = lev xs ys := by
  refine Nat.le_antisymm (aligns_ge (aligns_reverse (aligns_lev xs ys))) ?_
  have h := aligns_ge (aligns_reverse (aligns_lev xs.reverse ys.reverse))
  simpa using h

theorem lev_snoc_snoc (u w : List Char) (x y : Char) :
    lev (u ++ [x]) (w ++ [y]) =
      min (lev u (w ++ [y]) + 1)
        (min (lev (u ++ [x]) w + 1) (lev u w + (if x = y then 0 else 1))) := by
  have h1 : lev (u ++ [x]) (w ++ [y]) = lev (x :: u.reverse) (y :: w.reverse) := by
    rw [← lev_reverse (u ++ [x]) (w ++ [y])]
    simp
  have e1 : lev u.reverse (y :: w.reverse) = lev u (w ++ [y]) := by
    rw [show y :: w.reverse = (w ++ [y]).reverse from by simp,
      lev_reverse u (w ++ [y])]
  have e2 : lev (x :: u.reverse) w.reverse = lev (u ++ [x]) w := by
    rw [show x :: u.reverse = (u ++ [x]).reverse from by simp,
      lev_reverse (u ++ [x]) w]
  have e3 : lev u.reverse w.reverse = lev u w := lev_reverse u w
  rw [h1, lev_cons_cons, e1, e2, e3]

theorem rowAux_spec (c1 : Char) (p : List Char) :
    ∀ (s2suf w : List Char),
      rowAux c1 s2suf (lev p w :: levRow p w s2suf) (lev (p ++ [c1]) w)
        = levRow (p ++ [c1]) w s2suf := by
  intro s2suf
  induction s2suf with
  | nil => intro w; rfl
  | cons c2 rest ih =>
    intro w
    simp only [levRow, rowAux]
    rw [← lev_snoc_snoc p w c1 c2, ih (w ++ [c2])]

theorem range_map_levRow : ∀ (s2suf w : List Char),
    (List.range (s2suf.length + 1)).map (fun j => w.length + j)
      = lev [] w :: levRow [] w s2suf := by
  intro s2suf
  induction s2suf with
  | nil =>
    intro w
    simp [levRow, lev_nil_left, List.range_succ]
  | cons c rest ih =>
    intro w
    rw [List.length_cons, List.range_succ_eq_map, List.map_cons, List.map_map]
    have hfun : ((fun j => w.length + j) ∘ Nat.succ)
        = fun j => (w ++ [c]).length + j := by
      funext j
      simp only [Function.comp_apply, List.length_append, List.length_cons,
        List.length_nil]
      omega
    rw [hfun, ih (w ++ [c])]
    simp [levRow, lev_nil_left]

theorem dpLoop_spec (s2 : List Char) :
    ∀ (s1rem p : List Char),
      dpLoop s2 s1rem (lev p [] :: levRow p [] s2) p.length
        = lev (p ++ s1rem) [] :: levRow (p ++ s1rem) [] s2 := by
  intro s1rem
  induction s1rem with
  | nil => intro p; simp [dpLoop]
  | cons c1 rest ih =>
    intro p
    have hsnoc : p.length + 1 = lev (p ++ [c1]) [] := by
      rw [lev_nil_right]; simp
    have ih' := ih (p ++ [c1])
    rw [show (p ++ [c1]).length = lev (p ++ [c1]) [] from by
      rw [lev_nil_right]] at ih'
    rw [dpLoop, hsnoc, rowAux_spec c1 p s2 [], ih']
    simp

theorem getLastD_cons_cons (a b : Nat) (l : List Nat) :
    (a :: b :: l).getLastD 0 = (b :: l).getLastD 0 := by
  simp [List.getLastD]

theorem levRow_getLast (p : List Char) :
    ∀ (s2suf w : List Char) (a : Nat), s2suf ≠ [] →
      (a :: levRow p w s2suf).getLastD 0 = lev p (w ++ s2suf) := by
  intro s2suf
  induction s2suf with
  | nil => intro w a h; exact absurd rfl h
  | cons c rest ih =>
    intro w a h
    cases rest with
    | nil => simp [levRow]
    | cons c2 rest2 =>
      simp only [levRow]
      rw [getLastD_cons_cons]
      have := ih (w ++ [c]) (lev p (w ++ [c])) (by simp)
      simp only [levRow] at this
      rw [this]
      simp

theorem levDP_eq (s1 s2 : List Char) : levDP s1 s2 = lev s1 s2 := by
  unfold levDP
  by_cases h : s2.length = 0
  · rw [if_pos h]
    have h2 : s2 = [] := List.length_eq_zero.mp h
    rw [h2, lev_nil_right]
  · rw [if_neg h]
    have h2 : s2 ≠ [] := by
      intro e; rw [e] at h; exact h rfl
    have hinit : List.range (s2.length + 1) = lev [] [] :: levRow [] [] s2 := by
      have h3 := range_map_levRow s2 []
      simpa using h3
    rw [hinit]
    have h4 := dpLoop_spec s2 s1 []
    simp only [List.length_nil, List.nil_append] at h4
    rw [h4]
    have h5 := levRow_getLast s1 s2 [] (lev s1 []) h2
    simpa using h5

theorem calculate_levenshtein_distance_eq (s1 s2 : List Char) :
    calculate_levenshtein_distance s1 s2 = lev s1 s2 := by
  unfold calculate_levenshtein_distance
  by_cases h : s1.length < s2.length
  · rw [if_pos h, levDP_eq, lev_symm]
  · rw [if_neg h, levDP_eq]

/--
C8: `calculate_levenshtein_distance` is symmetric, zero on identical
strings, non-negative, and satisfies the triangle inequality.
-/
theorem levenshtein_metric (a b c : List Char) :
    calculate_levenshtein_distance a b = calculate_levenshtein_distance b a ∧
    calculate_levenshtein_distance a a = 0 ∧
    0 ≤ calculate_levenshtein_distance a b ∧
    calculate_levenshtein_distance a c ≤
      calculate_levenshtein_distance a b + calculate_levenshtein_distance b c := by
  simp only [calculate_levenshtein_distance_eq]
  exact ⟨lev_symm a b, lev_self a, Nat.zero_le _, lev_triangle a b c⟩

/--
C2 (code bug): `normalize_material` is *not* idempotent.  The source
strips before replacing hyphens by spaces, so a trailing (or leading)
hyphen becomes a trailing (resp. leading) space that survives
normalization: `normalize_material("a-") = "a "`, and normalizing again
gives `"a"`.
-/
theorem normalize_material_not_idempotent :
    normalize_material ("a-".toList) = "a ".toList ∧
    normalize_material (normalize_material ("a-".toList)) = "a".toList ∧
    normalize_material (normalize_material ("a-".toList))
      ≠ normalize_material ("a-".toList) := by decide

theorem toLowerPy_space {c : Char} (h : isSpacePy c = true) : toLowerPy c = c := by
  simp only [isSpacePy, Bool.or_eq_true, decide_eq_true_eq] at h
  rcases h with ((((h | h) | h) | h) | h) | h <;> subst h <;> decide

theorem strip_all_space {s : List Char} (h : ∀ c ∈ s, isSpacePy c = true) :
    strip s = [] := by
  unfold strip
  rw [List.dropWhile_eq_nil_iff.mpr h]
  simp

/--
C10: a first title that is empty or whitespace-only normalizes to zero
tokens, so the token-containment stage succeeds vacuously and
`fuzzy_title_match` accepts it against every second title.
-/
theorem fuzzy_title_match_empty_first (t1 t2 : List Char) (maxd : Nat)
    (h : ∀ c ∈ t1, isSpacePy c = true) :
    fuzzy_title_match t1 t2 maxd = true := by
  have hmap : ∀ c ∈ t1.map toLowerPy, isSpacePy c = true := by
    intro c hc
    rw [List.mem_map] at hc
    obtain ⟨a, ha, rfl⟩ := hc
    rw [toLowerPy_space (h a ha)]
    exact h a ha
  have hnorm : strip (t1.map toLowerPy) = [] := strip_all_space hmap
  unfold fuzzy_title_match
  rw [hnorm]
  by_cases h2 : ([] : List Char) = strip (t2.map toLowerPy)
  · rw [if_pos h2]
  · rw [if_neg h2]
    have hsim : check_word_similarity (splitWS ([] : List Char))
        (splitWS (strip (t2.map toLowerPy))) = true := rfl
    simp [hsim]

/-- Witness for C10 at a whitespace-only first title. -/
theorem fuzzy_title_match_empty_first_witness :
    (∀ c ∈ (" ".toList), isSpacePy c = true) ∧
      fuzzy_title_match (" ".toList) ("xyz".toList) 3 = true :=
  ⟨by decide, fuzzy_title_match_empty_first (" ".toList) ("xyz".toList) 3 (by decide)⟩

/--
C3 counterexample: the source computes the length-scaled part of the
threshold with Python `int(max_len * 0.2)` — a *floor* — while the claim
says `ceil(0.2 × longer_length)`.  For two already-normalized 16-character
titles at distance 4, the ceiling threshold is `max 3 ⌈16/5⌉ = 4`, so the
claim predicts a match, but the source (threshold `max 3 ⌊16/5⌋ = 3`)
returns `False`.
-/
theorem fuzzy_ceil_counterexample :
    fuzzy_title_match ("abcdxxxxxxxxxxxx".toList) ("zzzzxxxxxxxxxxxx".toList) 3
      = false ∧
    strip (("abcdxxxxxxxxxxxx".toList).map toLowerPy) = "abcdxxxxxxxxxxxx".toList ∧
    strip (("zzzzxxxxxxxxxxxx".toList).map toLowerPy) = "zzzzxxxxxxxxxxxx".toList ∧
    calculate_levenshtein_distance ("abcdxxxxxxxxxxxx".toList)
      ("zzzzxxxxxxxxxxxx".toList) = 4 ∧
    (4 : Nat) ≤ max 3 ((max ("abcdxxxxxxxxxxxx".toList).length
      ("zzzzxxxxxxxxxxxx".toList).length + 4) / 5) := by decide

/--
C3 amended: when the exact-equality stage and both directions of the
token-containment stage fail, `fuzzy_title_match` returns true iff the
Levenshtein distance of the normalized titles is at most
`max maxd (longer_length / 5)` — the *floor* of `0.2 × longer_length`,
not the ceiling.
-/
theorem fuzzy_fallback_iff (t1 t2 : List Char) (maxd : Nat)
    (h1 : strip (t1.map toLowerPy) ≠ strip (t2.map toLowerPy))
    (h2 : check_word_similarity (splitWS (strip (t1.map toLowerPy)))
      (splitWS (strip (t2.map toLowerPy))) = false)
    (h3 : check_word_similarity (splitWS (strip (t2.map toLowerPy)))
      (splitWS (strip (t1.map toLowerPy))) = false) :
    fuzzy_title_match t1 t2 maxd = true ↔
      calculate_levenshtein_distance (strip (t1.map toLowerPy))
          (strip (t2.map toLowerPy)) ≤
        max maxd (max (strip (t1.map toLowerPy)).length
          (strip (t2.map toLowerPy)).length / 5) := by
  unfold fuzzy_title_match
  rw [if_neg h1]
  simp [h2, h3]

/-- Witness for C3's amended theorem at `("ab", "cd", 3)`. -/
theorem fuzzy_fallback_iff_witness :
    fuzzy_title_match ("ab".toList) ("cd".toList) 3 = true ↔
      calculate_levenshtein_distance (strip (("ab".toList).map toLowerPy))
          (strip (("cd".toList).map toLowerPy)) ≤
        max 3 (max (strip (("ab".toList).map toLowerPy)).length
          (strip (("cd".toList).map toLowerPy)).length / 5) :=
  fuzzy_fallback_iff ("ab".toList) ("cd".toList) 3 (by decide) (by decide) (by decide)

theorem ok_bind {ε α β : Type} (a : α) (f : α → Except ε β) :
    (Except.ok a >>= f) = f a := rfl

theorem error_bind {ε α β : Type} (e : ε) (f : α → Except ε β) :
    ((Except.error e : Except ε α) >>= f) = .error e := rfl

/--
C4 counterexample: the source has no `FormatError` at all, and the
"exactly when unparseable" direction fails: `"-3"` is parseable as a
plain (negative) decimal — `float("-3")` succeeds — yet
`normalize_diameter("-3")` raises `ValueError`, because any `'-'` routes
the string into the mixed-number branch, whose `float("")` fails.
-/
theorem normalize_diameter_counterexample :
    floatLitOk ("-3".toList) = true ∧
    normalize_diameter ("-3".toList) = .error .valueError := by decide

/--
C4 amended: `normalize_diameter` raises a Python built-in exception
(`ValueError`, `IndexError` or `ZeroDivisionError` — the source defines
no `FormatError`) exactly when the stripped string fails the
delimiter-directed parse of `diameter_ok`: any `'-'` demands the
mixed-number form (so negative decimals raise too), any `'/'` otherwise
demands a numeric fraction with non-zero denominator, and otherwise the
string must be a float literal.  Likewise `normalize_page_number` raises
`ValueError` exactly on strings that are not integer literals.
-/
theorem normalize_errors_iff (s : List Char) :
    exOk (normalize_diameter s) = diameter_ok s ∧
    exOk (normalize_page_number (.str s)) = intLitOk s := by
  constructor
  · unfold normalize_diameter diameter_ok
    cases hdash : (diameterPreprocess s).contains '-' with
    | true =>
      simp only [hdash, if_true]
      cases hsp : splitOnChar '-' (diameterPreprocess s) with
      | nil => simp [exOk]
      | cons p0 rest =>
        cases rest with
        | nil => simp [exOk]
        | cons p1 rest1 =>
          cases hf : floatCore (strip p0) with
          | none => simp [pyFloat, hf, error_bind, exOk, floatLitOk]
          | some w =>
            simp only [pyFloat, hf, ok_bind]
            cases hsp2 : splitOnChar '/' p1 with
            | nil => simp [exOk, fracPartsOk, floatLitOk, hf]
            | cons f0 rest2 =>
              cases hg : floatCore (strip f0) with
              | none =>
                cases rest2 <;>
                  simp [pyFloat, hg, error_bind, exOk, fracPartsOk, floatLitOk, hf]
              | some nv =>
                cases rest2 with
                | nil => simp [pyFloat, hg, ok_bind, exOk, fracPartsOk,
                    floatLitOk, hf]
                | cons f1 rest3 =>
                  cases hh : floatCore (strip f1) with
                  | none => simp [pyFloat, hg, hh, ok_bind, error_bind, exOk,
                      fracPartsOk, floatLitOk, hf]
                  | some dv =>
                    by_cases hz : dv = 0
                    · simp [pyFloat, hg, hh, hf, ok_bind, exOk, fracPartsOk,
                        floatLitOk, floatValOf, hz]
                    · simp [pyFloat, hg, hh, hf, ok_bind, exOk, fracPartsOk,
                        floatLitOk, floatValOf, hz]
    | false =>
      simp only [hdash, Bool.false_eq_true, if_false]
      cases hsl : (diameterPreprocess s).contains '/' with
      | true =>
        simp only [hsl, if_true]
        cases hsp : splitOnChar '/' (diameterPreprocess s) with
        | nil => simp [exOk, fracPartsOk]
        | cons f0 rest =>
          cases rest with
          | nil => simp [exOk, fracPartsOk]
          | cons f1 rest1 =>
            cases hg : floatCore (strip f0) with
            | none => simp [pyFloat, hg, error_bind, exOk, fracPartsOk, floatLitOk]
            | some nv =>
              cases hh : floatCore (strip f1) with
              | none => simp [pyFloat, hg, hh, ok_bind, error_bind, exOk,
                  fracPartsOk, floatLitOk]
              | some dv =>
                by_cases hz : dv = 0
                · simp [pyFloat, hg, hh, ok_bind, exOk, fracPartsOk,
                    floatLitOk, floatValOf, hz]
                · simp [pyFloat, hg, hh, ok_bind, exOk, fracPartsOk,
                    floatLitOk, floatValOf, hz]
      | false =>
        simp only [hsl, Bool.false_eq_true, if_false]
        unfold pyFloat floatLitOk
        cases hfc : floatCore (strip (diameterPreprocess s)) <;> simp [exOk, hfc]
  · unfold normalize_page_number pyInt
    by_cases hint : intLitOk s = true
    · simp [hint, exOk]
    · simp only [Bool.not_eq_true] at hint
      simp [hint, exOk]

theorem optFieldEq_iff {α : Type} [DecidableEq α] (o1 o2 : Option α) :
    optFieldEq o1 o2 = true ↔ ∀ a b, o1 = some a → o2 = some b → a = b := by
  cases o1 <;> cases o2 <;> simp [optFieldEq]

theorem pageTol_iff (o1 o2 : Option ℤ) :
    (match o1, o2 with
     | some p1, some p2 => decide (|p1 - p2| ≤ 1)
     | _, _ => true) = true ↔
      ∀ p q, o1 = some p → o2 = some q → |p - q| ≤ 1 := by
  cases o1 <;> cases o2 <;> simp

/--
C5: two normalized entities match iff `type`, `material`, `diameter` and
`schedule` agree whenever both define them (a missing field never
disqualifies), and, when both define `location_page`, the absolute page
difference is at most 1.
-/
theorem entities_match_iff (e1 e2 : EntityN) :
    entities_match e1 e2 = true ↔
      ((∀ a b, e1.type = some a → e2.type = some b → a = b) ∧
       (∀ a b, e1.material = some a → e2.material = some b → a = b) ∧
       (∀ a b, e1.diameter = some a → e2.diameter = some b → a = b) ∧
       (∀ a b, e1.schedule = some a → e2.schedule = some b → a = b) ∧
       (∀ p q, e1.location_page = some p → e2.location_page = some q →
         |p - q| ≤ 1)) := by
  unfold entities_match
  simp only [Bool.and_eq_true, optFieldEq_iff, pageTol_iff]
  tauto

theorem normList_length {es : List Entity} {ns : List EntityN}
    (h : normList es = .ok ns) : ns.length = es.length := by
  induction es generalizing ns with
  | nil =>
    unfold normList at h
    simp only [Except.ok.injEq] at h
    subst h
    rfl
  | cons e es ih =>
    unfold normList at h
    cases hn : normalize_entity e with
    | error err => rw [hn] at h; simp [error_bind] at h
    | ok n =>
      rw [hn, ok_bind] at h
      cases hns : normList es with
      | error err => rw [hns] at h; simp [error_bind] at h
      | ok ns2 =>
        rw [hns, ok_bind] at h
        simp only [Except.ok.injEq] at h
        subst h
        simp [ih hns]

/--
C6: `score_entities` settles the empty-list edge cases before any
normalization or matching: both lists empty gives `(1.0, 1.0, 1.0)`,
exactly one empty gives `(0.0, 0.0, 0.0)`.
-/
theorem score_entities_empty_cases :
    score_entities [] [] = .ok (1, 1, 1) ∧
    (∀ g : List Entity, g ≠ [] → score_entities [] g = .ok (0, 0, 0)) ∧
    (∀ p : List Entity, p ≠ [] → score_entities p [] = .ok (0, 0, 0)) := by
  refine ⟨rfl, ?_, ?_⟩
  · intro g hg
    have hge : g.isEmpty = false := by
      cases g
      · exact absurd rfl hg
      · rfl
    unfold score_entities
    simp [hge]
  · intro p hp
    have hpe : p.isEmpty = false := by
      cases p
      · exact absurd rfl hp
      · rfl
    unfold score_entities
    simp [hpe]

/-- Witness for C6 at the singleton list `[ePipe]`. -/
theorem score_entities_empty_cases_witness :
    score_entities [] [ePipe] = .ok (0, 0, 0) ∧
    score_entities [ePipe] [] = .ok (0, 0, 0) :=
  ⟨score_entities_empty_cases.2.1 [ePipe] (by decide),
   score_entities_empty_cases.2.2 [ePipe] (by decide)⟩

/--
C9: the recall returned by `score_entities` is not bounded by 1: two
identical predicted entities both match the single gold entity, the gold
entity is never consumed, and `true_positives = 2` is divided by
`len(gold) = 1`, giving recall 2 (and F1 = 4/3).  Precision, by
contrast, always lies in `[0, 1]`.
-/
theorem score_entities_recall_unbounded :
    score_entities [ePipe, ePipe] [ePipe] = .ok (1, 2, 4 / 3) ∧
    (∀ (p g : List Entity) (pr re f1 : ℚ),
      score_entities p g = .ok (pr, re, f1) → 0 ≤ pr ∧ pr ≤ 1) := by
  constructor
  · have hnp : normList [ePipe, ePipe] = .ok [enPipe, enPipe] := by decide
    have hng : normList [ePipe] = .ok [enPipe] := by decide
    have htp : (([enPipe, enPipe].filter fun p =>
        [enPipe].any fun g => entities_match p g)).length = 2 := by decide
    unfold score_entities
    have hpure : ∀ x : ℚ × ℚ × ℚ, (pure x : Except PyErr (ℚ × ℚ × ℚ)) = .ok x :=
      fun _ => rfl
    simp only [List.isEmpty_cons, Bool.false_and, Bool.false_eq_true, if_false,
      hnp, hng, ok_bind, htp, hpure, Except.ok.injEq, Prod.mk.injEq]
    norm_num
  · intro p g pr re f1 h
    unfold score_entities at h
    cases hpe : p.isEmpty with
    | true =>
      rw [hpe] at h
      cases hge : g.isEmpty with
      | true =>
        rw [hge] at h
        simp only [Bool.and_self, eq_self_iff_true, if_true, Except.ok.injEq,
          Prod.mk.injEq] at h
        obtain ⟨h1, _⟩ := h
        rw [← h1]
        norm_num
      | false =>
        rw [hge] at h
        simp only [Bool.and_false, Bool.false_eq_true, if_false,
          eq_self_iff_true, if_true, Except.ok.injEq, Prod.mk.injEq] at h
        obtain ⟨h1, _⟩ := h
        rw [← h1]
        norm_num
    | false =>
      rw [hpe] at h
      simp only [Bool.false_and, Bool.false_eq_true, if_false] at h
      cases hge : g.isEmpty with
      | true =>
        rw [hge, if_pos (rfl : (true : Bool) = true), Except.ok.injEq,
          Prod.mk.injEq] at h
        obtain ⟨h1, _⟩ := h
        rw [← h1]
        norm_num
      | false =>
        rw [hge] at h
        simp only [Bool.false_eq_true, if_false] at h
        cases hnp : normList p with
        | error err => rw [hnp] at h; simp [error_bind] at h
        | ok np =>
          rw [hnp, ok_bind] at h
          cases hng : normList g with
          | error err => rw [hng] at h; simp [error_bind] at h
          | ok ng =>
            rw [hng, ok_bind] at h
            rw [show ∀ x : ℚ × ℚ × ℚ, (pure x : Except PyErr (ℚ × ℚ × ℚ)) = .ok x
              from fun _ => rfl] at h
            simp only [Except.ok.injEq, Prod.mk.injEq] at h
            obtain ⟨h1, _⟩ := h
            rw [← h1]
            have hple : p ≠ [] := by
              intro e
              rw [e] at hpe
              simp at hpe
            have hlen : 0 < p.length := List.length_pos.mpr hple
            constructor
            · positivity
            · rw [div_le_one (by exact_mod_cast hlen)]
              have htp : ((np.filter fun pe =>
                  ng.any fun ge => entities_match pe ge)).length ≤ p.length := by
                calc ((np.filter fun pe => ng.any fun ge => entities_match pe ge)).length
                    ≤ np.length := List.length_filter_le _ _
                  _ = p.length := normList_length hnp
              exact_mod_cast htp

/-- Witness for C9's precision bound at the empty input. -/
theorem score_entities_recall_unbounded_witness :
    score_entities ([] : List Entity) [] = .ok (1, 1, 1) ∧
      (0 ≤ (1 : ℚ) ∧ (1 : ℚ) ≤ 1) :=
  ⟨rfl, score_entities_recall_unbounded.2 [] [] 1 1 1 rfl⟩

theorem findBest_fst_eq (fuzzy : Bool) (thr : ℚ) (pred : Chunk) (hthr : 0 < thr) :
    ∀ (pool : List Chunk) (best : Option Chunk),
      (findBest fuzzy thr pred pool
        (best, match best with
               | none => 0
               | some b => calculate_iou_advanced pred b)).1
      = (pool.filter fun g => titlesMatch fuzzy pred.title g.title &&
          decide (thr ≤ calculate_iou_advanced pred g)).foldl (specStep pred) best := by
  intro pool
  induction pool with
  | nil => intro best; rfl
  | cons g pool ih =>
    intro best
    by_cases ht : titlesMatch fuzzy pred.title g.title = true
    · by_cases hq : thr ≤ calculate_iou_advanced pred g
      · rw [List.filter_cons_of_pos (by simp [ht, hq]), List.foldl_cons]
        cases best with
        | none =>
          have hcond : thr ≤ calculate_iou_advanced pred g ∧
              (0 : ℚ) < calculate_iou_advanced pred g :=
            ⟨hq, lt_of_lt_of_le hthr hq⟩
          show (findBest fuzzy thr pred (g :: pool) (none, 0)).1 = _
          rw [findBest, if_pos ht, if_pos hcond]
          exact ih (some g)
        | some b =>
          show (findBest fuzzy thr pred (g :: pool)
            (some b, calculate_iou_advanced pred b)).1 = _
          rw [findBest, if_pos ht]
          by_cases hlt : calculate_iou_advanced pred b < calculate_iou_advanced pred g
          · rw [if_pos ⟨hq, hlt⟩]
            have hstep : specStep pred (some b) g = some g := by
              simp only [specStep]
              rw [if_pos hlt]
            rw [hstep]
            exact ih (some g)
          · rw [if_neg (by intro hc; exact hlt hc.2)]
            have hstep : specStep pred (some b) g = some b := by
              simp only [specStep]
              rw [if_neg hlt]
            rw [hstep]
            exact ih (some b)
      · rw [List.filter_cons_of_neg (by simp [hq])]
        cases best with
        | none =>
          show (findBest fuzzy thr pred (g :: pool) (none, 0)).1 = _
          rw [findBest, if_pos ht, if_neg (by intro hc; exact hq hc.1)]
          exact ih none
        | some b =>
          show (findBest fuzzy thr pred (g :: pool)
            (some b, calculate_iou_advanced pred b)).1 = _
          rw [findBest, if_pos ht, if_neg (by intro hc; exact hq hc.1)]
          exact ih (some b)
    · rw [List.filter_cons_of_neg (by simp [ht])]
      cases best with
      | none =>
        show (findBest fuzzy thr pred (g :: pool) (none, 0)).1 = _
        rw [findBest, if_neg ht]
        exact ih none
      | some b =>
        show (findBest fuzzy thr pred (g :: pool)
          (some b, calculate_iou_advanced pred b)).1 = _
        rw [findBest, if_neg ht]
        exact ih (some b)

theorem findBest_eq_selectWinner (fuzzy : Bool) (thr : ℚ) (pred : Chunk)
    (hthr : 0 < thr) (pool : List Chunk) :
    (findBest fuzzy thr pred pool (none, 0)).1 = selectWinner fuzzy thr pred pool :=
  findBest_fst_eq fuzzy thr pred hthr pool none

theorem specStep_foldl_mem (pred : Chunk) :
    ∀ (qual : List Chunk) (acc : Option Chunk) (w : Chunk),
      qual.foldl (specStep pred) acc = some w → acc = some w ∨ w ∈ qual := by
  intro qual
  induction qual with
  | nil => intro acc w h; exact Or.inl h
  | cons g rest ih =>
    intro acc w h
    rw [List.foldl_cons] at h
    rcases ih (specStep pred acc g) w h with h2 | h2
    · cases acc with
      | none =>
        simp only [specStep, Option.some.injEq] at h2
        exact Or.inr (by rw [← h2]; exact List.mem_cons_self g rest)
      | some b =>
        simp only [specStep] at h2
        by_cases hlt : calculate_iou_advanced pred b < calculate_iou_advanced pred g
        · rw [if_pos hlt] at h2
          simp only [Option.some.injEq] at h2
          exact Or.inr (by rw [← h2]; exact List.mem_cons_self g rest)
        · rw [if_neg hlt] at h2
          exact Or.inl h2
    · exact Or.inr (List.mem_cons_of_mem g h2)

theorem selectWinner_mem {fuzzy : Bool} {thr : ℚ} {pred w : Chunk}
    {pool : List Chunk} (h : selectWinner fuzzy thr pred pool = some w) :
    w ∈ pool := by
  unfold selectWinner at h
  rcases specStep_foldl_mem pred _ none w h with h2 | h2
  · exact absurd h2 (by simp)
  · exact List.mem_of_mem_filter h2

theorem matchLoop_eq_specLoop (fuzzy : Bool) (thr : ℚ) (hthr : 0 < thr) :
    ∀ (ps pool : List Chunk), ps.length = pool.length →
      matchLoop fuzzy thr ps pool = specLoop fuzzy thr ps pool := by
  intro ps
  induction ps with
  | nil =>
    intro pool hlen
    have hpool : pool = [] := List.length_eq_zero.mp hlen.symm
    subst hpool
    rfl
  | cons p ps ih =>
    intro pool hlen
    unfold matchLoop specLoop
    rw [findBest_eq_selectWinner fuzzy thr p hthr pool]
    cases hw : selectWinner fuzzy thr p pool with
    | none => rfl
    | some w =>
      have hmem : w ∈ pool := selectWinner_mem hw
      have herase : (pool.erase w).length = pool.length - 1 :=
        List.length_erase_of_mem hmem
      have hlen2 : ps.length = (pool.erase w).length := by
        rw [herase]
        simp only [List.length_cons] at hlen
        omega
      exact ih (pool.erase w) hlen2

/--
C1: `compare_chunks` implements exactly the greedy selection rule the
claim describes — length check first, then, for each predicted chunk in
input order, consume from the pool of unmatched gold chunks the
title-matching candidate with the strictly highest IoU at or above the
threshold (ties to the first candidate in pool order), failing as soon
as some predicted chunk has no winner.  The equivalence holds for every
positive threshold; the source's default `iou_threshold` is 0.7.  (With
equal lengths, a fully matched run necessarily empties the pool, so the
source's final leftover-pool check agrees with the claim's "every
predicted chunk found a unique winner".)
-/
theorem compare_chunks_follows_spec (predicted gold : List Chunk)
    (page_tol : ℤ) (thr : ℚ) (fuzzy : Bool) (hthr : 0 < thr) :
    compare_chunks predicted gold page_tol thr fuzzy
      = compare_chunks_spec predicted gold thr fuzzy := by
  unfold compare_chunks compare_chunks_spec
  by_cases h : predicted.length ≠ gold.length
  · rw [if_pos h, if_pos h]
  · rw [if_neg h, if_neg h]
    push_neg at h
    exact matchLoop_eq_specLoop fuzzy thr hthr predicted gold h

/-- Witness for C1 at the default threshold `0.7` on concrete chunk
lists. -/
theorem compare_chunks_follows_spec_witness :
    0 < (7 / 10 : ℚ) ∧
    compare_chunks [⟨"a".toList, 1, 2⟩] [⟨"a".toList, 1, 2⟩] 1 (7 / 10) true
      = compare_chunks_spec [⟨"a".toList, 1, 2⟩] [⟨"a".toList, 1, 2⟩] (7 / 10) true :=
  ⟨by norm_num,
   compare_chunks_follows_spec [⟨"a".toList, 1, 2⟩] [⟨"a".toList, 1, 2⟩] 1
     (7 / 10) true (by norm_num)⟩

theorem calculate_iou_self {c : Chunk} (h : c.start_page ≤ c.end_page) :
    calculate_iou_advanced c c = 1 := by
  unfold calculate_iou_advanced
  rw [min_self, max_self, max_eq_right (by omega : (0 : ℤ) ≤ c.end_page - c.start_page + 1)]
  rw [if_pos (by omega : (0 : ℤ) <
    c.end_page - c.start_page + 1 + (c.end_page - c.start_page + 1) -
      (c.end_page - c.start_page + 1))]
  rw [show c.end_page - c.start_page + 1 + (c.end_page - c.start_page + 1) -
      (c.end_page - c.start_page + 1) = c.end_page - c.start_page + 1 from by ring]
  exact div_self (by exact_mod_cast (by omega : c.end_page - c.start_page + 1 ≠ 0))

theorem calculate_iou_le_one {c1 c2 : Chunk} (h1 : c1.start_page ≤ c1.end_page)
    (h2 : c2.start_page ≤ c2.end_page) :
    calculate_iou_advanced c1 c2 ≤ 1 := by
  unfold calculate_iou_advanced
  set inter : ℤ :=
    max 0 (min c1.end_page c2.end_page - max c1.start_page c2.start_page + 1) with hinter
  set uni : ℤ := c1.end_page - c1.start_page + 1 + (c2.end_page - c2.start_page + 1)
    - inter with huni
  by_cases hpos : 0 < uni
  · rw [if_pos hpos]
    rw [div_le_one (by exact_mod_cast hpos)]
    have hle : inter ≤ uni := by
      have ha : inter ≤ c1.end_page - c1.start_page + 1 := by
        rw [hinter]
        omega
      have hb : inter ≤ c2.end_page - c2.start_page + 1 := by
        rw [hinter]
        omega
      omega
    exact_mod_cast hle
  · rw [if_neg hpos]
    norm_num

theorem fuzzy_title_match_refl (t : List Char) (maxd : Nat) :
    fuzzy_title_match t t maxd = true := by
  unfold fuzzy_title_match
  simp

theorem findBest_keep (fuzzy : Bool) (thr : ℚ) (pred b : Chunk) :
    ∀ pool : List Chunk, (∀ g ∈ pool, calculate_iou_advanced pred g ≤ 1) →
      findBest fuzzy thr pred pool (some b, 1) = (some b, 1) := by
  intro pool
  induction pool with
  | nil => intro _; rfl
  | cons g pool ih =>
    intro hle
    have hg : calculate_iou_advanced pred g ≤ 1 := hle g (List.mem_cons_self g pool)
    have hrest : ∀ g2 ∈ pool, calculate_iou_advanced pred g2 ≤ 1 :=
      fun g2 hg2 => hle g2 (List.mem_cons_of_mem g hg2)
    by_cases ht : titlesMatch fuzzy pred.title g.title = true
    · rw [findBest, if_pos ht, if_neg (by intro hc; exact absurd hc.2 (not_lt.mpr hg))]
      exact ih hrest
    · rw [findBest, if_neg ht]
      exact ih hrest

theorem matchLoop_refl :
    ∀ X : List Chunk, (∀ c ∈ X, c.start_page ≤ c.end_page) →
      matchLoop true (7 / 10) X X = true := by
  intro X
  induction X with
  | nil => intro _; rfl
  | cons c rest ih =>
    intro hvalid
    have hc : c.start_page ≤ c.end_page := hvalid c (List.mem_cons_self c rest)
    have hrest : ∀ g ∈ rest, g.start_page ≤ g.end_page :=
      fun g hg => hvalid g (List.mem_cons_of_mem c hg)
    have htitle : titlesMatch true c.title c.title = true := by
      unfold titlesMatch
      simp [fuzzy_title_match_refl]
    have hself : calculate_iou_advanced c c = 1 := calculate_iou_self hc
    have hfind : (findBest true (7 / 10) c (c :: rest) (none, 0)).1 = some c := by
      rw [findBest, if_pos htitle,
        if_pos (by rw [hself]; norm_num : (7 / 10 : ℚ) ≤ calculate_iou_advanced c c ∧
          (0 : ℚ) < calculate_iou_advanced c c), hself]
      rw [findBest_keep true (7 / 10) c c rest
        (fun g hg => calculate_iou_le_one hc (hrest g hg))]
    rw [matchLoop, hfind]
    show matchLoop true (7 / 10) rest ((c :: rest).erase c) = true
    rw [List.erase_cons_head]
    exact ih hrest

/--
C7: chunk matching is reflexive — for every valid chunk list (each chunk
with `start_page ≤ end_page`) with pairwise distinct titles,
`compare_chunks X X` at the default thresholds returns true: every chunk
title-matches itself exactly, its IoU with itself is 1 ≥ 0.7, and no
later pool candidate can strictly exceed an IoU of 1.
-/
theorem compare_chunks_reflexive (X : List Chunk)
    (hvalid : ∀ c ∈ X, c.start_page ≤ c.end_page)
    (huniq : X.Pairwise fun a b => a.title ≠ b.title) :
    compare_chunks X X 1 (7 / 10) true = true := by
  unfold compare_chunks
  rw [if_neg (by simp)]
  exact matchLoop_refl X hvalid

/-- Witness for C7 on a concrete valid two-chunk list with distinct
titles. -/
theorem compare_chunks_reflexive_witness :
    ((∀ c ∈ [(⟨"a".toList, 1, 2⟩ : Chunk), ⟨"b".toList, 3, 4⟩],
        c.start_page ≤ c.end_page) ∧
      ([(⟨"a".toList, 1, 2⟩ : Chunk), ⟨"b".toList, 3, 4⟩].Pairwise
        fun a b => a.title ≠ b.title)) ∧
    compare_chunks [(⟨"a".toList, 1, 2⟩ : Chunk), ⟨"b".toList, 3, 4⟩]
      [(⟨"a".toList, 1, 2⟩ : Chunk), ⟨"b".toList, 3, 4⟩] 1 (7 / 10) true = true :=
  ⟨⟨by decide, by simp [List.pairwise_cons]⟩,
   compare_chunks_reflexive [(⟨"a".toList, 1, 2⟩ : Chunk), ⟨"b".toList, 3, 4⟩]
     (by decide) (by simp [List.pairwise_cons])⟩

end Grading
